import Mathlib

/-!
Shallow embedding of the `MyVec<T>` growable vector from
`src/_16_unsafe.rs` (module `safe_wrapper`, lines 165-243).

The Rust struct is
  `pub struct MyVec<T> { ptr: *mut T, len: usize, cap: usize }`.
The raw heap block behind `ptr` is modelled explicitly by the field `mem`,
a list of `cap` slots; an uninitialized slot holds `none`, a slot that a
placement `ptr::write` has constructed holds `some value`.  `ptrNull`
records whether `ptr` is the null pointer (`ptr::null_mut()` in `new`,
a real block address after any allocation).  `allocCount` counts the
calls made to the global allocator (`alloc`/`realloc`), mirroring the
allocator instrumentation the repository's spec describes for tests; it
is ghost state that no operation reads.
-/

structure MyVec (T : Type) where
  ptrNull : Bool
  mem : List (Option T)
  len : Nat
  cap : Nat
  allocCount : Nat
deriving Repr

/-- One observable action of `impl Drop for MyVec`: `ptr::drop_in_place`
on slot `i`, or the single `dealloc` of the backing block. -/
inductive DropEvent where
  | destruct (i : Nat)
  | release
deriving DecidableEq, Repr

/-- Projection of a drop event to the destructed slot index, `none` for
the `dealloc` event. -/
def destructIndex : DropEvent → Option Nat
  | DropEvent.destruct i => some i
  | DropEvent.release => none

/-- The value of `isize::MAX` on the 64-bit targets the repository
builds for. -/
def isizeMax : Nat := 2 ^ 63 - 1

/-- Rust `std::alloc::Layout::array::<T>(n)` for an element size of
`sizeT` bytes: `Ok` with the byte size `n * sizeT` when that fits the
layout bound (`isize::MAX`), `Err` on overflow.  `grow` calls
`.unwrap()` on this result. -/
def layoutArray (sizeT n : Nat) : Option Nat :=
  if n * sizeT ≤ isizeMax then some (n * sizeT) else none

/-- Outcome of a `push` in the model that keeps the fallibility of the
layout computation: either the updated vector, or the unrecoverable
panic that `.unwrap()` raises on a failed growth request.  There is no
recoverable-error variant, matching `push`'s `()` return type in the
source. -/
inductive PushOutcome (T : Type) where
  | ok (v : MyVec T)
  | fatal

namespace MyVec

variable {T : Type}

/-- Rust `MyVec::new`: null pointer, `len = 0`, `cap = 0`, no
allocation. -/
def new : MyVec T :=
  { ptrNull := true, mem := [], len := 0, cap := 0, allocCount := 0 }

/-- Rust `MyVec::is_empty`: `self.len == 0`. -/
def is_empty (v : MyVec T) : Bool :=
  v.len == 0

/-- Rust `MyVec::grow`: `new_cap = if cap == 0 then 1 else cap * 2`; a
fresh `alloc` when `cap == 0` (block of `new_cap` uninitialized slots),
else a `realloc` (old slots preserved, the extension uninitialized).
Sets `ptr` to the returned block and `cap` to `new_cap`. -/
def grow (v : MyVec T) : MyVec T :=
  let new_cap := if v.cap = 0 then 1 else v.cap * 2
  let new_mem :=
    if v.cap = 0 then List.replicate new_cap (none : Option T)
    else v.mem ++ List.replicate (new_cap - v.cap) (none : Option T)
  { ptrNull := false, mem := new_mem, len := v.len, cap := new_cap,
    allocCount := v.allocCount + 1 }

/-- Rust `MyVec::push`: grow when `len == cap`, then `ptr::write` the
value into slot `len` (placement construction) and increment `len`. -/
def push (v : MyVec T) (value : T) : MyVec T :=
  let w := if v.len = v.cap then v.grow else v
  { w with mem := w.mem.set w.len (some value), len := w.len + 1 }

/-- Rust `MyVec::get`: bounds check `index < len` first; only then
dereference `ptr.add(index)`.  Out of range gives `None`. -/
def get (v : MyVec T) (index : Nat) : Option T :=
  if index < v.len then v.mem.getD index none else none

/-- Rust `MyVec::get`, instrumented: the same result paired with the
list of slot indices the unsafe block dereferences (empty on the `None`
path, exactly `[index]` on the in-bounds path). -/
def getReads (v : MyVec T) (index : Nat) : Option T × List Nat :=
  if index < v.len then (v.mem.getD index none, [index]) else (none, [])

/-- Pushing a whole list, first element first. -/
def pushAll (v : MyVec T) (l : List T) : MyVec T :=
  l.foldl push v

/-- The `impl Drop for MyVec`, as the trace of its observable actions:
when `cap > 0` it runs `drop_in_place` on slots `0, 1, ..., len - 1` in
that order and then `dealloc`s the block once; when `cap == 0` it does
nothing at all. -/
def dropEvents (v : MyVec T) : List DropEvent :=
  if 0 < v.cap then
    (List.range v.len).map DropEvent.destruct ++ [DropEvent.release]
  else []

/-- Model of `MyVec::grow` with both fallible collaborators explicit.
The `Layout::array::<T>(new_cap)` result is unwrapped, so an `Err`
(the size computation overflows) panics: `fatal`.  The pointer that
`alloc`/`realloc` returns is stored without any null check, exactly as
in the source (`self.ptr = new_ptr; self.cap = new_cap;`): when the
allocator fails the request (`allocOk = false`) it returns null, and
`grow` stores the null pointer and the new capacity and returns
normally — the null "block" has no valid slots, so `mem` is empty. -/
def growChecked (sizeT : Nat) (allocOk : Bool) (v : MyVec T) : PushOutcome T :=
  let new_cap := if v.cap = 0 then 1 else v.cap * 2
  match layoutArray sizeT new_cap with
  | none => PushOutcome.fatal
  | some _ =>
      if allocOk then PushOutcome.ok v.grow
      else
        PushOutcome.ok
          { ptrNull := true, mem := [], len := v.len, cap := new_cap,
            allocCount := v.allocCount + 1 }

/-- Model of `MyVec::push` built on `growChecked`: only the layout
unwrap aborts the push.  After an allocator failure the push continues
into the `ptr::write` through the stored null pointer — in the model a
write that lands in no valid slot — and still increments `len`. -/
def pushChecked (sizeT : Nat) (allocOk : Bool) (v : MyVec T) (value : T) : PushOutcome T :=
  if v.len = v.cap then
    match growChecked sizeT allocOk v with
    | PushOutcome.fatal => PushOutcome.fatal
    | PushOutcome.ok w =>
        PushOutcome.ok { w with mem := w.mem.set w.len (some value), len := w.len + 1 }
  else
    PushOutcome.ok { v with mem := v.mem.set v.len (some value), len := v.len + 1 }

/-- Abstraction relation: `v` is the in-memory representation of the
element list `l` — `len` counts `l`, the block has exactly `cap` slots,
`len ≤ cap`, the first `len` slots hold `l`'s elements in order, and a
zero capacity still has the null pointer from `new`. -/
def models (v : MyVec T) (l : List T) : Prop :=
  v.len = l.length ∧ v.mem.length = v.cap ∧ v.len ≤ v.cap ∧
    v.mem.take v.len = l.map some ∧ (v.cap = 0 → v.ptrNull = true)

/-- Arithmetic invariant behind the growth policy: a state is either
still the fresh `len = 0, cap = 0` one, or its capacity is a power of
two with `len ≤ cap < 2 * len`. -/
def CapInv (v : MyVec T) : Prop :=
  (v.len = 0 ∧ v.cap = 0) ∨
    (1 ≤ v.len ∧ v.len ≤ v.cap ∧ v.cap < 2 * v.len ∧ ∃ k, v.cap = 2 ^ k)

end MyVec

/-- The container states reachable through the public API: `new`, then
any sequence of `push`es (`len`, `is_empty`, `get` do not mutate). -/
inductive Reachable {T : Type} : MyVec T → Prop
  | new : Reachable MyVec.new
  | push (v : MyVec T) (x : T) : Reachable v → Reachable (v.push x)

namespace MyVec

variable {T : Type}

theorem models_new : (new : MyVec T).models [] := by
  refine ⟨rfl, rfl, Nat.le_refl 0, rfl, fun _ => rfl⟩

theorem grow_len (v : MyVec T) : v.grow.len = v.len := rfl

theorem grow_cap (v : MyVec T) :
    v.grow.cap = if v.cap = 0 then 1 else v.cap * 2 := rfl

theorem grow_models {v : MyVec T} {l : List T} (h : v.models l) :
    v.grow.models l := by
  obtain ⟨hlen, hmem, hle, htake, _⟩ := h
  by_cases hc : v.cap = 0
  · have hm0 : v.mem = [] := List.length_eq_zero.mp (hmem.trans hc)
    have hl0 : v.len = 0 := Nat.le_zero.mp (hc ▸ hle)
    have hll : l = [] := List.length_eq_zero.mp (by omega)
    subst hll
    simp [grow, models, hc, hm0, hl0]
  · have hcap2 : v.cap ≤ v.cap * 2 := by omega
    refine ⟨hlen, ?_, ?_, ?_, ?_⟩
    · simp [grow, hc]
      omega
    · simp [grow, hc]
      omega
    · simpa [grow, hc, List.take_append_of_le_length (hmem ▸ hle)] using htake
    · intro h0
      simp [grow, hc] at h0

theorem take_set_of_le (l : List (Option T)) (i n : Nat) (a : Option T) (h : n ≤ i) :
    (l.set i a).take n = l.take n := by
  apply List.ext_getElem?
  intro j
  rw [List.getElem?_take, List.getElem?_take]
  by_cases hj : j < n
  · simp only [if_pos hj]
    exact List.getElem?_set_ne (by omega)
  · simp [hj]

theorem push_len (v : MyVec T) (x : T) : (v.push x).len = v.len + 1 := by
  unfold push
  by_cases h : v.len = v.cap <;> simp [h, grow_len]

theorem push_cap (v : MyVec T) (x : T) :
    (v.push x).cap = if v.len = v.cap then (if v.cap = 0 then 1 else v.cap * 2) else v.cap := by
  unfold push
  by_cases h : v.len = v.cap <;> simp [h, grow_cap]

theorem len_lt_cap_grow {v : MyVec T} (hfull : v.len = v.cap) :
    v.grow.len < v.grow.cap := by
  rw [grow_len, grow_cap]
  by_cases hc : v.cap = 0 <;> simp [hc] <;> omega

theorem models_write {w : MyVec T} {l : List T} (h : w.models l) (hlt : w.len < w.cap) {x : T} :
    ({ w with mem := w.mem.set w.len (some x), len := w.len + 1 } : MyVec T).models (l ++ [x]) := by
  obtain ⟨hlen, hmem, _, htake, _⟩ := h
  have hmlt : w.len < w.mem.length := by omega
  refine ⟨by simp [hlen], by simp [hmem], by simp; omega, ?_, ?_⟩
  · rw [List.take_succ, take_set_of_le _ _ _ _ (Nat.le_refl _), htake,
      List.getElem?_set_self hmlt]
    simp
  · intro h0
    simp at h0
    omega

theorem models_push {v : MyVec T} {l : List T} (h : v.models l) (x : T) :
    (v.push x).models (l ++ [x]) := by
  unfold push
  by_cases hfull : v.len = v.cap
  · have hw := grow_models h
    have hlt := len_lt_cap_grow (v := v) hfull
    simp only [if_pos hfull]
    exact models_write hw hlt
  · have hlt : v.len < v.cap := Nat.lt_of_le_of_ne h.2.2.1 hfull
    simp only [if_neg hfull]
    exact models_write h hlt

theorem models_pushAll {v : MyVec T} {l : List T} (h : v.models l) (l2 : List T) :
    (v.pushAll l2).models (l ++ l2) := by
  induction l2 generalizing v l with
  | nil => simpa [pushAll] using h
  | cons y ys ih =>
    have h2 := models_push h y
    have h3 := ih h2
    simpa [pushAll, List.foldl_cons] using h3

theorem pushAll_new_models (l : List T) : ((new : MyVec T).pushAll l).models l := by
  simpa using models_pushAll models_new l

theorem reachable_models {v : MyVec T} (h : Reachable v) : ∃ l, v.models l := by
  induction h with
  | new => exact ⟨[], models_new⟩
  | push w x _ ih =>
    obtain ⟨l, hl⟩ := ih
    exact ⟨l ++ [x], models_push hl x⟩

theorem get_models {v : MyVec T} {l : List T} (h : v.models l) (i : Nat) :
    v.get i = l[i]? := by
  obtain ⟨hlen, hmem, hle, htake, _⟩ := h
  unfold get
  by_cases hi : i < v.len
  · have h1 : v.mem.getD i none = v.mem[i]?.getD none :=
      List.getD_eq_getElem?_getD v.mem i none
    have h2 : (v.mem.take v.len)[i]? = v.mem[i]? := by
      rw [List.getElem?_take]
      simp [hi]
    have h3 : (l.map some)[i]? = l[i]?.map some := List.getElem?_map some l i
    have h4 : ∃ a, l[i]? = some a := by
      have : i < l.length := by omega
      exact ⟨l[i], List.getElem?_eq_some_iff.mpr ⟨this, rfl⟩⟩
    obtain ⟨a, ha⟩ := h4
    rw [if_pos hi, h1, ← h2, htake, h3, ha]
    rfl
  · rw [if_neg hi]
    have : l.length ≤ i := by omega
    exact (List.getElem?_eq_none_iff.mpr this).symm

theorem capInv_new : CapInv (new : MyVec T) :=
  Or.inl ⟨rfl, rfl⟩

theorem capInv_push {v : MyVec T} (h : CapInv v) (x : T) : CapInv (v.push x) := by
  have hl := push_len v x
  have hc := push_cap v x
  rcases h with ⟨h0, hc0⟩ | ⟨h1, hle, hlt, k, hk⟩
  · have hfull : v.len = v.cap := by omega
    have hcp : (v.push x).cap = 1 := by rw [hc]; simp [hfull, hc0]
    exact Or.inr ⟨by omega, by omega, by omega, 0, by simp [hcp]⟩
  · by_cases hfull : v.len = v.cap
    · have hcap0 : v.cap ≠ 0 := by omega
      have hcp : (v.push x).cap = v.cap * 2 := by rw [hc]; simp [hfull, hcap0]
      refine Or.inr ⟨by omega, by omega, by omega, k + 1, ?_⟩
      rw [hcp, hk]
      ring
    · have hcp : (v.push x).cap = v.cap := by rw [hc]; simp [hfull]
      exact Or.inr ⟨by omega, by omega, by omega, k, by omega⟩

theorem capInv_pushAll {v : MyVec T} (h : CapInv v) (l : List T) :
    CapInv (v.pushAll l) := by
  induction l generalizing v with
  | nil => simpa [pushAll] using h
  | cons y ys ih => simpa [pushAll, List.foldl_cons] using ih (capInv_push h y)

theorem push_cap_le (v : MyVec T) (x : T) : v.cap ≤ (v.push x).cap := by
  rw [push_cap]
  by_cases hfull : v.len = v.cap
  · by_cases hc : v.cap = 0
    · simp [hfull, hc]
    · simp [hfull, hc]
      omega
  · simp [hfull]

theorem pushAll_cap_le (v : MyVec T) (l : List T) : v.cap ≤ (v.pushAll l).cap := by
  induction l generalizing v with
  | nil => simp [pushAll]
  | cons y ys ih =>
    calc v.cap ≤ (v.push y).cap := push_cap_le v y
    _ ≤ ((v.push y).pushAll ys).cap := ih (v.push y)
    _ = (v.pushAll (y :: ys)).cap := by simp [pushAll, List.foldl_cons]

theorem pow_two_least {c n : Nat} (hpow : ∃ k, c = 2 ^ k) (hge : n ≤ c)
    (hlt : c < 2 * n) : ∀ m, n ≤ 2 ^ m → c ≤ 2 ^ m := by
  intro m hm
  obtain ⟨k, hk⟩ := hpow
  cases k with
  | zero =>
    subst hk
    exact Nat.one_le_two_pow
  | succ k' =>
    have h2 : 2 ^ k' < n := by
      have : c = 2 * 2 ^ k' := by rw [hk]; ring
      omega
    have h3 : 2 ^ k' < 2 ^ m := by omega
    have h4 : k' < m := (Nat.pow_lt_pow_iff_right (by norm_num)).mp h3
    calc c = 2 ^ (k' + 1) := hk
    _ ≤ 2 ^ m := Nat.pow_le_pow_right (by norm_num) (by omega)

theorem count_range (n i : Nat) : (List.range n).count i = if i < n then 1 else 0 := by
  induction n with
  | zero => simp
  | succ m ih =>
    rw [List.range_succ, List.count_append, ih]
    simp only [List.count_cons, List.count_nil, beq_iff_eq]
    split_ifs <;> omega

theorem count_destruct_map (l : List Nat) (i : Nat) :
    (l.map DropEvent.destruct).count (DropEvent.destruct i) = l.count i := by
  induction l with
  | nil => rfl
  | cons a l ih => simp [List.count_cons, ih]

theorem filterMap_destructIndex_map (l : List Nat) :
    (l.map DropEvent.destruct).filterMap destructIndex = l := by
  induction l with
  | nil => rfl
  | cons a l ih => simp [destructIndex, ih]

theorem count_release_map (l : List Nat) :
    (l.map DropEvent.destruct).count DropEvent.release = 0 := by
  induction l with
  | nil => rfl
  | cons a l ih => simp [List.count_cons, ih]

theorem isSome_getElem?_iff {α : Type} (l : List α) (i : Nat) :
    l[i]?.isSome ↔ i < l.length := by
  constructor
  · intro h
    by_contra hc
    rw [List.getElem?_eq_none_iff.mpr (by omega)] at h
    simp at h
  · intro h
    rw [List.getElem?_eq_some_iff.mpr ⟨h, rfl⟩]
    rfl

end MyVec

namespace MyVec

variable {T : Type}

/-- C1: for every sequence of values `l = v_0 ... v_{n-1}` pushed in
order into a container created by `new()`, `get i` returns `some v_i`
for every `i < n` and `none` for every `i ≥ n` — precisely, `get i`
agrees with `l[i]?`, which is `some v_i` when `i < n` and `none`
otherwise. -/
theorem pushAll_new_get (T : Type) (l : List T) (i : Nat) :
    (MyVec.pushAll MyVec.new l).get i = l[i]? :=
  get_models (pushAll_new_models l) i

/-- C2: in every reachable container state, `get index` is `some` of the
element at `index` exactly when `index < len` and `none` otherwise; the
unsafe dereference only ever touches slot indices below `len` (the
bounds check guards the pointer arithmetic), and `get` is a total
function — it never panics. -/
theorem get_some_iff_index_lt_len (v : MyVec T) (hv : Reachable v) (index : Nat) :
    ((v.get index).isSome ↔ index < v.len)
    ∧ (v.len ≤ index → v.get index = none)
    ∧ (∀ j ∈ (v.getReads index).2, j < v.len)
    ∧ (v.getReads index).1 = v.get index := by
  obtain ⟨l, hm⟩ := reachable_models hv
  have hg := get_models hm index
  have hlen := hm.1
  refine ⟨?_, ?_, ?_, ?_⟩
  · rw [hg, hlen]
    exact isSome_getElem?_iff l index
  · intro hi
    rw [hg]
    exact List.getElem?_eq_none_iff.mpr (by omega)
  · intro j hj
    unfold getReads at hj
    by_cases h : index < v.len
    · simp [h] at hj
      omega
    · simp [h] at hj
  · unfold getReads get
    by_cases h : index < v.len <;> simp [h]

theorem get_some_iff_index_lt_len_witness :
    (((MyVec.new : MyVec Nat).push 5).get 0).isSome ↔ 0 < ((MyVec.new : MyVec Nat).push 5).len :=
  (get_some_iff_index_lt_len (MyVec.new.push 5) (Reachable.push MyVec.new 5 Reachable.new) 0).1

/-- C3: `push` grows the capacity exactly when `len == cap` at entry,
and the grown capacity is `max 1 (cap * 2)` — so the first push from
empty sets capacity 1, an exhausted capacity is doubled, and a push
with spare capacity leaves the capacity unchanged. -/
theorem push_cap_policy (v : MyVec T) (x : T) :
    (v.push x).cap = if v.len = v.cap then max 1 (v.cap * 2) else v.cap := by
  rw [push_cap]
  by_cases hfull : v.len = v.cap
  · by_cases hc : v.cap = 0
    · simp [hfull, hc]
    · simp [hfull, hc]
      omega
  · simp [hfull]

/-- C4: the invariants `len ≤ cap` and `cap = 0 → ptr is null` hold for
`new()` and are preserved by every operation, hence hold in every
reachable container state (`len`, `is_empty` and `get` do not change
the state at all; `Reachable` closes `new` under `push`). -/
theorem reachable_len_le_cap_ptrNull (v : MyVec T) (hv : Reachable v) :
    v.len ≤ v.cap ∧ (v.cap = 0 → v.ptrNull = true) := by
  obtain ⟨l, hm⟩ := reachable_models hv
  exact ⟨hm.2.2.1, hm.2.2.2.2⟩

theorem reachable_len_le_cap_ptrNull_witness :
    (MyVec.new : MyVec Nat).len ≤ (MyVec.new : MyVec Nat).cap :=
  (reachable_len_le_cap_ptrNull MyVec.new Reachable.new).1

/-- C5: on teardown of a reachable container, every live element
(indices `0..len`) is destructed exactly once and in ascending index
order (the destructed indices are exactly `List.range len`), no
index at or beyond `len` is ever destructed, the backing block is
released exactly once when `cap > 0` and never when `cap = 0`, and the
release comes after all destructions. -/
theorem dropEvents_destruct_once_ascending_release (v : MyVec T) (hv : Reachable v) :
    (∀ i, i < v.len → v.dropEvents.count (DropEvent.destruct i) = 1)
    ∧ (∀ i, v.len ≤ i → v.dropEvents.count (DropEvent.destruct i) = 0)
    ∧ v.dropEvents.count DropEvent.release = (if 0 < v.cap then 1 else 0)
    ∧ v.dropEvents.filterMap destructIndex = List.range v.len
    ∧ (0 < v.cap → v.dropEvents.getLast? = some DropEvent.release) := by
  obtain ⟨l, hm⟩ := reachable_models hv
  by_cases hc : 0 < v.cap
  · have hd : v.dropEvents
        = (List.range v.len).map DropEvent.destruct ++ [DropEvent.release] := by
      simp [dropEvents, hc]
    refine ⟨?_, ?_, ?_, ?_, ?_⟩
    · intro i hi
      rw [hd, List.count_append, count_destruct_map, count_range]
      simp [hi, List.count_cons]
    · intro i hi
      rw [hd, List.count_append, count_destruct_map, count_range]
      simp [List.count_cons]
      omega
    · rw [hd, List.count_append, count_release_map]
      simp [hc, List.count_cons]
    · rw [hd, List.filterMap_append, filterMap_destructIndex_map]
      simp [destructIndex]
    · intro _
      rw [hd]
      exact List.getLast?_concat _
  · have hlen0 : v.len = 0 := by
      have := hm.2.2.1
      omega
    have hd : v.dropEvents = [] := by simp [dropEvents, hc]
    refine ⟨?_, ?_, ?_, ?_, ?_⟩
    · intro i hi
      omega
    · intro i _
      rw [hd]
      rfl
    · rw [hd]
      simp [hc]
    · rw [hd, hlen0]
      rfl
    · intro h
      exact absurd h hc

theorem dropEvents_destruct_once_ascending_release_witness :
    ((MyVec.new : MyVec Nat).push 5).dropEvents.filterMap destructIndex
      = List.range ((MyVec.new : MyVec Nat).push 5).len :=
  (dropEvents_destruct_once_ascending_release (MyVec.new.push 5)
    (Reachable.push MyVec.new 5 Reachable.new)).2.2.2.1

/-- C6: every push on a reachable state increases `len` by exactly 1
and makes the pushed value retrievable at `get (len - 1)`; and after
pushing any list of `k` values starting from `new()` (in particular any
`k ≤ 10000`), `len` equals `k`. -/
theorem push_len_succ_get_last (v : MyVec T) (x : T) (hv : Reachable v) (l : List T) :
    ((v.push x).len = v.len + 1
      ∧ (v.push x).get ((v.push x).len - 1) = some x)
    ∧ (MyVec.pushAll MyVec.new l).len = l.length := by
  obtain ⟨l0, hm⟩ := reachable_models hv
  have hp := models_push hm x
  refine ⟨⟨push_len v x, ?_⟩, (pushAll_new_models l).1⟩
  have hg := get_models hp ((v.push x).len - 1)
  rw [hg, push_len, hm.1]
  simp [List.getElem?_concat_length]

theorem push_len_succ_get_last_witness :
    ((((MyVec.new : MyVec Nat).push 5).push 9).len = ((MyVec.new : MyVec Nat).push 5).len + 1
      ∧ (((MyVec.new : MyVec Nat).push 5).push 9).get
          ((((MyVec.new : MyVec Nat).push 5).push 9).len - 1) = some 9)
    ∧ (MyVec.pushAll MyVec.new [1, 2, 3]).len = ([1, 2, 3] : List Nat).length :=
  push_len_succ_get_last (MyVec.new.push 5) 9 (Reachable.push MyVec.new 5 Reachable.new) [1, 2, 3]

/-- C7 (counterexample): the claimed growth pattern "growth on pushes
1, 2, and 4 and no growth on pushes 3 and 5" is false on the code — the
third push does grow the capacity (from 2 to 4), so "no growth on push
3 together with growth on push 4" does not hold. -/
theorem growth_pattern_cex :
    ¬ ((MyVec.pushAll MyVec.new ([1, 2, 3] : List Nat)).cap
        = (MyVec.pushAll MyVec.new ([1, 2] : List Nat)).cap
      ∧ (MyVec.pushAll MyVec.new ([1, 2, 3, 4] : List Nat)).cap
        ≠ (MyVec.pushAll MyVec.new ([1, 2, 3] : List Nat)).cap) := by
  decide

/-- C7 (amended): pushing `1, 2, 3, 4, 5` in order into a new container
yields `len = 5`, `get 0 = some 1` through `get 4 = some 5`,
`get 5 = none`, and the capacity sequence observed during the five
pushes is `1, 2, 4, 4, 8` — growth occurs on pushes 1, 2, 3 and 5 and
no growth on push 4. -/
theorem concrete_scenario_amended :
    (MyVec.new : MyVec Nat).cap = 0
    ∧ (MyVec.pushAll MyVec.new ([1, 2, 3, 4, 5] : List Nat)).len = 5
    ∧ (MyVec.pushAll MyVec.new ([1, 2, 3, 4, 5] : List Nat)).get 0 = some 1
    ∧ (MyVec.pushAll MyVec.new ([1, 2, 3, 4, 5] : List Nat)).get 1 = some 2
    ∧ (MyVec.pushAll MyVec.new ([1, 2, 3, 4, 5] : List Nat)).get 2 = some 3
    ∧ (MyVec.pushAll MyVec.new ([1, 2, 3, 4, 5] : List Nat)).get 3 = some 4
    ∧ (MyVec.pushAll MyVec.new ([1, 2, 3, 4, 5] : List Nat)).get 4 = some 5
    ∧ (MyVec.pushAll MyVec.new ([1, 2, 3, 4, 5] : List Nat)).get 5 = none
    ∧ (MyVec.pushAll MyVec.new ([1] : List Nat)).cap = 1
    ∧ (MyVec.pushAll MyVec.new ([1, 2] : List Nat)).cap = 2
    ∧ (MyVec.pushAll MyVec.new ([1, 2, 3] : List Nat)).cap = 4
    ∧ (MyVec.pushAll MyVec.new ([1, 2, 3, 4] : List Nat)).cap = 4
    ∧ (MyVec.pushAll MyVec.new ([1, 2, 3, 4, 5] : List Nat)).cap = 8 := by
  decide

/-- C8 (code bug): the claim — and the spec's stated intent — is that
an allocator failure during growth is fatal and unrecoverable, that
`push` aborts rather than continuing.  The source's `grow` only unwraps
the `Layout::array` result; the pointer that `alloc`/`realloc` returns
is never checked for null.  Evaluated at the failing input (first push
into a fresh vector, element size 1, the allocator fails the request),
`push` does not abort: it returns normally with the null pointer
stored, `cap = 1`, `len` incremented to 1, the write gone through the
null pointer (undefined behavior in the source), and the pushed
element not retrievable (`get 0 = none`). -/
theorem push_continues_through_null_alloc :
    MyVec.pushChecked 1 false (MyVec.new : MyVec Unit) () ≠ PushOutcome.fatal
    ∧ ∃ w, MyVec.pushChecked 1 false (MyVec.new : MyVec Unit) () = PushOutcome.ok w
        ∧ w.ptrNull = true ∧ w.cap = 1 ∧ w.len = 1 ∧ w.get 0 = none := by
  have heq : MyVec.pushChecked 1 false (MyVec.new : MyVec Unit) ()
      = PushOutcome.ok { ptrNull := true, mem := [], len := 1, cap := 1, allocCount := 1 } := rfl
  refine ⟨fun h => ?_, ⟨_, heq, rfl, rfl, rfl, rfl⟩⟩
  rw [heq] at h
  exact PushOutcome.noConfusion h

/-- C9: `new()` returns a container with `cap = 0`, `len = 0`, a null
pointer and zero allocator calls; on it `len()` is 0 and `is_empty()`
is true; `new` is a total function (it cannot fail), and the first
allocator call happens only at the first push. -/
theorem new_empty_no_alloc (T : Type) (x : T) :
    (new : MyVec T).cap = 0 ∧ (new : MyVec T).len = 0
    ∧ (new : MyVec T).allocCount = 0
    ∧ (new : MyVec T).is_empty = true ∧ (new : MyVec T).ptrNull = true
    ∧ ((new : MyVec T).push x).allocCount = 1 :=
  ⟨rfl, rfl, rfl, rfl, rfl, rfl⟩

/-- C10: after pushing any nonempty list `l` of `n = l.length` values
into a new container, the capacity is the least power of two that is
`≥ n` (it is a power of two, at least `n`, and below every power of two
that is `≥ n`); the capacity of the fresh container is 0, and capacity
never decreases across any further pushes. -/
theorem pushAll_cap_least_pow2 (l : List T) (h : 1 ≤ l.length) (l2 : List T) :
    (∃ k, (MyVec.pushAll MyVec.new l).cap = 2 ^ k)
    ∧ l.length ≤ (MyVec.pushAll MyVec.new l).cap
    ∧ (∀ m, l.length ≤ 2 ^ m → (MyVec.pushAll MyVec.new l).cap ≤ 2 ^ m)
    ∧ (MyVec.new : MyVec T).cap = 0
    ∧ (MyVec.pushAll MyVec.new l).cap ≤ ((MyVec.pushAll MyVec.new l).pushAll l2).cap := by
  have hci := capInv_pushAll capInv_new l
  have hlen : (MyVec.pushAll MyVec.new l).len = l.length := (pushAll_new_models l).1
  rcases hci with ⟨h0, _⟩ | ⟨h1, hle, hlt, k, hk⟩
  · omega
  · refine ⟨⟨k, hk⟩, by omega, ?_, rfl, pushAll_cap_le _ l2⟩
    exact pow_two_least ⟨k, hk⟩ (by omega) (by omega)

theorem pushAll_cap_least_pow2_witness :
    ([3, 1, 2] : List Nat).length ≤ (MyVec.pushAll MyVec.new [3, 1, 2]).cap :=
  (pushAll_cap_least_pow2 [3, 1, 2] (by decide) [7]).2.1

end MyVec
